import Mathlib

/-!
Shallow embedding of the `markov_bots` repository: `graph.py` (a weighted
state-transition graph for Markov chains) and `rw.py` (the `RandomWriter`
model built on top of it).

Python `dict`s and `collections.Counter`s preserve insertion order, so both
are modelled as insertion-ordered association lists.  The random source is
modelled by explicit draw parameters: `random.randint(1, n)` becomes
`r % n + 1` for an adversarially chosen seed `r : Nat`, and `random.choice`
on a list of length `n` becomes indexing at `r % n`.  Python exceptions are
modelled with `Except`.
-/

namespace MarkovBots

/-- Association-list lookup: the first entry with the given key.  Models a
Python dict lookup (`d[k]` / `k in d`). -/
def lookupA {β γ : Type} [DecidableEq β] : List (β × γ) → β → Option γ
  | [], _ => Option.none
  | (k, v) :: rest, key => if k = key then some v else lookupA rest key

/-- Association-list in-place update of the first entry with the given key
(models mutating the value stored under an existing dict key). -/
def updateA {β γ : Type} [DecidableEq β] : List (β × γ) → β → (γ → γ) → List (β × γ)
  | [], _, _ => []
  | (k, v) :: rest, key, f =>
      if k = key then (k, f v) :: rest else (k, v) :: updateA rest key f

/-- Python `Counter` increment `c[key] += 1`: bump an existing entry, or append a
fresh entry with count 1 (new dict keys go at the end, in insertion order). -/
def bump {β : Type} [DecidableEq β] (c : List (β × Nat)) (key : β) : List (β × Nat) :=
  if (lookupA c key).isSome then updateA c key (· + 1) else c ++ [(key, 1)]

/-- Model of `graph.Graph`: `vertices` maps each state (a token window) to its
successor `Counter`; `state_key` is the cursor (`None` before any state is
added).  In `graph.py`, `Graph.__init__` with no state leaves `_vertices`
unset and `_state_key = None`; since no code path reads `_vertices` in that
situation, the empty list models it faithfully. -/
structure Graph (α : Type) where
  vertices : List (List α × List (List α × Nat))
  state_key : Option (List α)
deriving DecidableEq

/-- Constructor `graph.Graph()` called with `state=None`. -/
def Graph.empty {α : Type} : Graph α := ⟨[], Option.none⟩

/-- Method `Graph.add_edge` (graph.py lines 21-40): on the first call records the
state as the sole vertex and cursor; otherwise inserts `next_state` as a
vertex if new, increments the weight of the edge (cursor -> `next_state`)
and advances the cursor. -/
def Graph.add_edge {α : Type} [DecidableEq α] (g : Graph α) (next_state : List α) :
    Graph α :=
  match g.state_key with
  | Option.none => ⟨[(next_state, [])], some next_state⟩
  | some sk =>
      let vs := if (lookupA g.vertices next_state).isSome then g.vertices
                else g.vertices ++ [(next_state, [])]
      ⟨updateA vs sk (fun c => bump c next_state), some next_state⟩

/-- Errors raised inside `graph.py`:
`untrainedGraph` is the `ValueError("You must add some data to the graph!")`,
`noNeighbors` the `ValueError("The current state has no neighbors.")`,
`keyError` a Python `KeyError`/`AttributeError` on a missing cursor entry,
`assertFalse` the `assert(False)` at the end of `yield_neighbor`, and
`indexError` a Python `IndexError` (empty-tuple `[-1]` or `random.choice`
on an empty list). -/
inductive GraphError where
  | untrainedGraph
  | noNeighbors
  | keyError
  | assertFalse
  | indexError
deriving DecidableEq

/-- Total `sum(self._vertices[self._state_key].values())`. -/
def sumWeights {α : Type} (c : List (List α × Nat)) : Nat :=
  (c.map Prod.snd).sum

/-- The selection loop of `Graph.yield_neighbor` (graph.py lines 68-72):
subtract each weight from the draw in iteration order and return the first
neighbor at which the running remainder drops to `<= 0`. -/
def selectNeighbor {α : Type} : List (List α × Nat) → Int → Option (List α)
  | [], _ => Option.none
  | (n, w) :: rest, sel =>
      if sel - (w : Int) ≤ 0 then some n else selectNeighbor rest (sel - (w : Int))

/-- Method `Graph.yield_neighbor` (graph.py lines 58-74) with the random draw made
explicit: `random.randint(1, total)` is modelled as `r % total + 1`. -/
def Graph.yield_neighbor {α : Type} [DecidableEq α] (g : Graph α) (r : Nat) :
    Except GraphError (List α) :=
  match g.state_key with
  | Option.none => .error .keyError
  | some sk =>
      match lookupA g.vertices sk with
      | Option.none => .error .keyError
      | some succs =>
          let total := sumWeights succs
          if total = 0 then .error .noNeighbors
          else
            match selectNeighbor succs ((r % total + 1 : Nat) : Int) with
            | some n => .ok n
            | Option.none => .error .assertFalse

/-- Method `Graph.get_random_token` (graph.py lines 42-56) with both random draws
explicit (`r1` feeds `yield_neighbor`, `r2` feeds the `random.choice`
restart).  Returns the updated graph together with the emitted token
(`self._state_key[-1]`). -/
def Graph.get_random_token {α : Type} [DecidableEq α] (g : Graph α) (r1 r2 : Nat) :
    Except GraphError (Graph α × α) :=
  match g.state_key with
  | Option.none => .error .untrainedGraph
  | some _ =>
      let keyRes : Except GraphError (List α) :=
        match g.yield_neighbor r1 with
        | .ok n => .ok n
        | .error .noNeighbors =>
            let ks := g.vertices.map Prod.fst
            match ks.get? (r2 % ks.length) with
            | some k => .ok k
            | Option.none => .error .indexError
        | .error e => .error e
      match keyRes with
      | .error e => .error e
      | .ok k =>
          match k.getLast? with
          | some t => .ok (⟨g.vertices, some k⟩, t)
          | Option.none => .error .indexError

/-- Enum `rw.Tokenization` (rw.py lines 10-27). -/
inductive Tokenization where
  | word
  | character
  | byte
  | none
deriving DecidableEq

/-- Errors raised by `rw.RandomWriter`: `untrained` is the
`ValueError("The RandomWriter must be trained ...")` in `generate`,
`graphErr` wraps an error propagated from the graph, `notAModel` the
`ValueError` in `load_pickle` when the unpickled object is not a
`RandomWriter`, and `badPickle` a malformed persisted blob. -/
inductive RWError where
  | untrained
  | graphErr (e : GraphError)
  | notAModel
  | badPickle
deriving DecidableEq

/-- Model of `rw.RandomWriter`: tokenization mode, level, and the optional graph
(`None` until the first training call). -/
structure RandomWriter (α : Type) where
  mode : Tokenization
  level : Nat
  graph : Option (Graph α)
deriving DecidableEq

/-- The ordered sequence of window states inserted by
`RandomWriter.train_iterable` (rw.py lines 180-189): for level 0 the
singleton slices `data[i:i+1]` for each `i < len(data)`, otherwise the
slices `data[i:i+level]` for `i in range(len(data) - level + 1)` (a Python
`range` of a negative number is empty, hence the `Int` arithmetic). -/
def windows {α : Type} (level : Nat) (data : List α) : List (List α) :=
  if level = 0 then
    (List.range data.length).map (fun i => (data.drop i).take 1)
  else
    (List.range (((data.length : Int) - (level : Int) + 1).toNat)).map
      (fun i => (data.drop i).take level)

/-- Folding a sequence of `add_edge` calls over a fresh graph. -/
def buildGraph {α : Type} [DecidableEq α] (states : List (List α)) : Graph α :=
  states.foldl Graph.add_edge Graph.empty

/-- Method `RandomWriter.train_iterable` (rw.py lines 166-189) on already validated
and tokenized data: it installs `self._graph = graph.Graph()` (a fresh
graph, discarding any previous one) and feeds every window into
`add_edge`. -/
def RandomWriter.train_iterable {α : Type} [DecidableEq α] (rw : RandomWriter α)
    (data : List α) : RandomWriter α :=
  { rw with graph := some (buildGraph (windows rw.level data)) }

/-- The first token pulled from `RandomWriter.generate()` (rw.py lines
56-65): raises `untrained` when no graph is installed, otherwise performs
one `get_random_token` step. -/
def RandomWriter.generate1 {α : Type} [DecidableEq α] (rw : RandomWriter α)
    (r1 r2 : Nat) : Except RWError α :=
  match rw.graph with
  | Option.none => .error .untrained
  | some g =>
      match g.get_random_token r1 r2 with
      | .error e => .error (.graphErr e)
      | .ok (_, t) => .ok t

/-- Pulling a sequence of tokens from the generator: one
`get_random_token` step per seed pair, threading the graph cursor. -/
def genTokens {α : Type} [DecidableEq α] (g : Graph α) :
    List (Nat × Nat) → Except GraphError (Graph α × List α)
  | [] => .ok (g, [])
  | (r1, r2) :: rest =>
      match g.get_random_token r1 r2 with
      | .error e => .error e
      | .ok (g2, t) =>
          match genTokens g2 rest with
          | .error e => .error e
          | .ok (g3, ts) => .ok (g3, t :: ts)

/-- The text branch of `RandomWriter.generate_file` (rw.py lines 86-96) on
the stringified tokens drawn from the generator: each token is written,
followed by a space unless the mode is `character`. -/
def generate_file_text (mode : Tokenization) (tokens : List String) : String :=
  tokens.foldl
    (fun acc t => acc ++ (if mode = Tokenization.character then t else t ++ " ")) ""

/-- The byte branch of `RandomWriter.generate_file` (rw.py lines 79-85):
`bytes(next(gen) for _ in range(amount))` concatenates the drawn byte
tokens with no separator. -/
def generate_file_bytes (tokens : List Nat) : List Nat := tokens

/-- A pickled Python object as far as `save_pickle`/`load_pickle` observe
it: either the captured attribute state of a `RandomWriter` (pickle
serializes the object graph of `_mode`, `_level`, `_graph` losslessly) or
some other object (which fails the `isinstance` check on load). -/
inductive Pickled (α : Type) where
  | obj (modeTag : Nat) (level : Nat) (graphData : Option (Graph α))
  | other
deriving DecidableEq

/-- The numeric value of each `Tokenization` member (rw.py lines 24-27). -/
def Tokenization.tag : Tokenization → Nat
  | .word => 1
  | .character => 2
  | .byte => 3
  | .none => 4

/-- Decoding a tokenization tag, the inverse of `Tokenization.tag`. -/
def tagMode (t : Nat) : Option Tokenization :=
  if t = 1 then some .word
  else if t = 2 then some .character
  else if t = 3 then some .byte
  else if t = 4 then some .none
  else Option.none

/-- Method `RandomWriter.save_pickle` (rw.py lines 98-112): pickle the model,
capturing its full attribute state.  The source performs no trained-ness
check before pickling. -/
def RandomWriter.save_pickle {α : Type} (rw : RandomWriter α) : Pickled α :=
  .obj rw.mode.tag rw.level rw.graph

/-- Method `RandomWriter.load_pickle` (rw.py lines 114-140): unpickle and check the
result is a `RandomWriter` (`isinstance`), raising `ValueError` otherwise. -/
def load_pickle {α : Type} (p : Pickled α) : Except RWError (RandomWriter α) :=
  match p with
  | .other => .error .notAModel
  | .obj t lvl gd =>
      match tagMode t with
      | Option.none => .error .badPickle
      | some m => .ok ⟨m, lvl, gd⟩

/-- The top-level vertex keys of a graph, in insertion order
(`list(self._vertices)`). -/
def keys {α : Type} (g : Graph α) : List (List α) :=
  g.vertices.map Prod.fst

/-- The successor counter of a state (empty when the state is absent). -/
def succsOf {α : Type} [DecidableEq α] (g : Graph α) (A : List α) :
    List (List α × Nat) :=
  (lookupA g.vertices A).getD []

/-- The weight of the edge `A -> B` (0 when absent). -/
def weightOf {α : Type} [DecidableEq α] (g : Graph α) (A B : List α) : Nat :=
  (lookupA (succsOf g A) B).getD 0

/-- Whether `B` appears as a key in `A`'s successor counter. -/
def hasEdge {α : Type} [DecidableEq α] (g : Graph α) (A B : List α) : Bool :=
  (lookupA (succsOf g A) B).isSome

/-- The number of adjacent occurrences of the pair `(A, B)` in a list of
states: how many times `B` was inserted immediately after `A`. -/
def countAdj {α : Type} [DecidableEq α] : List (List α) → List α → List α → Nat
  | [], _, _ => 0
  | [_], _, _ => 0
  | x :: y :: rest, A, B =>
      (if x = A ∧ y = B then 1 else 0) + countAdj (y :: rest) A B

/-- Modelled from the spec: "iterate successors in a stable (insertion)
order"; the selected successor is the first one at which the cumulative sum
of the weights reaches or exceeds the draw `d` (accumulator `acc` is the
sum of the weights already passed). -/
def specSelectAux {α : Type} : List (List α × Nat) → Nat → Nat → Option (List α)
  | [], _, _ => Option.none
  | (n, w) :: rest, acc, d =>
      if d ≤ acc + w then some n else specSelectAux rest (acc + w) d

/-- Modelled from the spec: the successor selected by a draw `d`, namely the
first successor (in stable insertion order) whose cumulative weight reaches
or exceeds `d`. -/
def specSelect {α : Type} (succs : List (List α × Nat)) (d : Nat) : Option (List α) :=
  specSelectAux succs 0 d

/-- The properties of a graph that generation preserves: every vertex state
is a nonempty window over the training data, every successor key is a
vertex, and the cursor (when set) is a vertex. -/
def GoodGraph {α : Type} [DecidableEq α] (g : Graph α) (data : List α) : Prop :=
  (∀ k, k ∈ keys g → k ≠ [] ∧ ∀ x ∈ k, x ∈ data) ∧
  (∀ A B, hasEdge g A B = true → B ∈ keys g) ∧
  (∀ s, g.state_key = some s → s ∈ keys g)

instance {ε σ : Type} [DecidableEq ε] [DecidableEq σ] : DecidableEq (Except ε σ) :=
  fun a b =>
    match a, b with
    | .error e, .error f =>
        if h : e = f then .isTrue (by rw [h])
        else .isFalse (fun hc => h (by injection hc))
    | .error _, .ok _ => .isFalse (fun hc => Except.noConfusion hc)
    | .ok _, .error _ => .isFalse (fun hc => Except.noConfusion hc)
    | .ok x, .ok y =>
        if h : x = y then .isTrue (by rw [h])
        else .isFalse (fun hc => h (by injection hc))

theorem lookupA_isSome_iff_mem {β γ : Type} [DecidableEq β] (l : List (β × γ)) (k : β) :
    (lookupA l k).isSome = true ↔ k ∈ l.map Prod.fst := by
  induction l with
  | nil => simp [lookupA]
  | cons p rest ih =>
      obtain ⟨a, b⟩ := p
      by_cases h : a = k
      · subst h; simp [lookupA]
      · simp [lookupA, h, ih, Ne.symm h]

theorem getLast?_eq_some_mem {β : Type} {l : List β} {a : β}
    (h : l.getLast? = some a) : a ∈ l := by
  induction l with
  | nil => simp [List.getLast?] at h
  | cons x rest ih =>
      cases rest with
      | nil =>
          simp [List.getLast?] at h
          simp [h]
      | cons y ys =>
          rw [List.getLast?_cons_cons] at h
          exact List.mem_cons_of_mem x (ih h)

theorem selectNeighbor_isSome {α : Type} (succs : List (List α × Nat)) (d : Int)
    (h1 : 1 ≤ d) (h2 : d ≤ (sumWeights succs : Int)) :
    (selectNeighbor succs d).isSome = true := by
  induction succs generalizing d with
  | nil => simp [sumWeights] at h2; omega
  | cons p rest ih =>
      obtain ⟨n, w⟩ := p
      by_cases hw : d - (w : Int) ≤ 0
      · simp [selectNeighbor, hw]
      · have hsum : (sumWeights ((n, w) :: rest) : Int) = (w : Int) + sumWeights rest := by
          simp [sumWeights]
        simp only [selectNeighbor, if_neg hw]
        exact ih (d - w) (by omega) (by omega)

theorem selectNeighbor_mem {α : Type} (succs : List (List α × Nat)) (d : Int)
    (n : List α) (h : selectNeighbor succs d = some n) :
    n ∈ succs.map Prod.fst := by
  induction succs generalizing d with
  | nil => simp [selectNeighbor] at h
  | cons p rest ih =>
      obtain ⟨m, w⟩ := p
      by_cases hw : d - (w : Int) ≤ 0
      · simp only [selectNeighbor, if_pos hw] at h
        injection h with h
        simp [h]
      · simp only [selectNeighbor, if_neg hw] at h
        exact List.mem_cons_of_mem _ (ih _ h)

theorem specSelectAux_eq_selectNeighbor {α : Type} (succs : List (List α × Nat))
    (acc d : Nat) (h : acc < d) :
    specSelectAux succs acc d = selectNeighbor succs ((d : Int) - acc) := by
  induction succs generalizing acc with
  | nil => simp [specSelectAux, selectNeighbor]
  | cons p rest ih =>
      obtain ⟨n, w⟩ := p
      by_cases hc : d ≤ acc + w
      · have hc2 : (d : Int) - acc - w ≤ 0 := by omega
        simp only [specSelectAux, selectNeighbor, if_pos hc]
        rw [if_pos hc2]
      · have hc2 : ¬ ((d : Int) - acc - w ≤ 0) := by omega
        have harg : (d : Int) - (acc + w : Nat) = (d : Int) - acc - w := by
          push_cast; ring
        simp only [specSelectAux, selectNeighbor, if_neg hc, if_neg hc2]
        rw [ih (acc + w) (by omega), harg]

theorem specSelect_eq_selectNeighbor {α : Type} (succs : List (List α × Nat))
    (d : Nat) (h : 1 ≤ d) :
    specSelect succs d = selectNeighbor succs (d : Int) := by
  have := specSelectAux_eq_selectNeighbor succs 0 d (by omega)
  simpa [specSelect] using this

theorem lookupA_updateA_self {β γ : Type} [DecidableEq β] (l : List (β × γ))
    (key : β) (f : γ → γ) :
    lookupA (updateA l key f) key = (lookupA l key).map f := by
  induction l with
  | nil => simp [lookupA, updateA]
  | cons p rest ih =>
      obtain ⟨a, b⟩ := p
      by_cases h : a = key
      · subst h; simp [lookupA, updateA]
      · simp [lookupA, updateA, h, ih]

theorem lookupA_updateA_ne {β γ : Type} [DecidableEq β] (l : List (β × γ))
    (key k : β) (f : γ → γ) (h : k ≠ key) :
    lookupA (updateA l key f) k = lookupA l k := by
  induction l with
  | nil => simp [lookupA, updateA]
  | cons p rest ih =>
      obtain ⟨a, b⟩ := p
      by_cases ha : a = key
      · subst ha
        simp [lookupA, updateA, Ne.symm h]
      · by_cases hak : a = k <;> simp [lookupA, updateA, ha, hak, ih, h]

theorem keys_updateA {β γ : Type} [DecidableEq β] (l : List (β × γ)) (key : β)
    (f : γ → γ) :
    (updateA l key f).map Prod.fst = l.map Prod.fst := by
  induction l with
  | nil => simp [updateA]
  | cons p rest ih =>
      obtain ⟨a, b⟩ := p
      by_cases h : a = key <;> simp [updateA, h, ih]

theorem lookupA_append {β γ : Type} [DecidableEq β] (l1 l2 : List (β × γ)) (k : β) :
    lookupA (l1 ++ l2) k = (lookupA l1 k).or (lookupA l2 k) := by
  induction l1 with
  | nil => simp [lookupA]
  | cons p rest ih =>
      obtain ⟨a, b⟩ := p
      by_cases h : a = k <;> simp [lookupA, h, ih]

theorem lookupA_extend {β γ : Type} [DecidableEq β] (l : List (β × γ)) (s : β)
    (dv : γ) (A : β) :
    lookupA (if (lookupA l s).isSome then l else l ++ [(s, dv)]) A =
      if A = s then some ((lookupA l s).getD dv) else lookupA l A := by
  by_cases hs : (lookupA l s).isSome
  · rw [if_pos hs]
    by_cases hA : A = s
    · subst hA
      obtain ⟨v, hv⟩ := Option.isSome_iff_exists.mp hs
      simp [hv]
    · rw [if_neg hA]
  · rw [if_neg hs]
    have hnone : lookupA l s = Option.none := Option.not_isSome_iff_eq_none.mp hs
    rw [lookupA_append]
    by_cases hA : A = s
    · subst hA
      rw [hnone]
      simp [lookupA]
    · rw [if_neg hA]
      have h2 : lookupA [(s, dv)] A = Option.none := by
        simp [lookupA, Ne.symm hA]
      rw [h2]
      cases hla : lookupA l A <;> simp

theorem lookupA_bump_self {β : Type} [DecidableEq β] (c : List (β × Nat)) (key : β) :
    lookupA (bump c key) key = some ((lookupA c key).getD 0 + 1) := by
  by_cases h : (lookupA c key).isSome
  · obtain ⟨v, hv⟩ := Option.isSome_iff_exists.mp h
    simp [bump, h, lookupA_updateA_self, hv]
  · have hn : lookupA c key = Option.none := Option.not_isSome_iff_eq_none.mp h
    simp [bump, h, lookupA_append, hn, lookupA]

theorem lookupA_bump_ne {β : Type} [DecidableEq β] (c : List (β × Nat))
    (key k : β) (h : k ≠ key) :
    lookupA (bump c key) k = lookupA c k := by
  by_cases hs : (lookupA c key).isSome
  · simp [bump, hs, lookupA_updateA_ne _ _ _ _ h]
  · have h2 : lookupA [(key, 1)] k = Option.none := by
      simp [lookupA, Ne.symm h]
    simp [bump, hs, lookupA_append, h2]

theorem add_edge_state_key {α : Type} [DecidableEq α] (g : Graph α) (s : List α) :
    (g.add_edge s).state_key = some s := by
  cases hsk : g.state_key <;> simp [Graph.add_edge, hsk]

theorem keys_add_edge {α : Type} [DecidableEq α] (g : Graph α) (s sk : List α)
    (hsk : g.state_key = some sk) :
    keys (g.add_edge s) =
      if (lookupA g.vertices s).isSome then keys g else keys g ++ [s] := by
  by_cases hls : (lookupA g.vertices s).isSome <;>
    simp [keys, Graph.add_edge, hsk, hls, keys_updateA]

theorem mem_keys_add_edge_self {α : Type} [DecidableEq α] (g : Graph α)
    (s sk : List α) (hsk : g.state_key = some sk) :
    s ∈ keys (g.add_edge s) := by
  rw [keys_add_edge g s sk hsk]
  by_cases hls : (lookupA g.vertices s).isSome
  · rw [if_pos hls]
    exact (lookupA_isSome_iff_mem _ _).mp hls
  · rw [if_neg hls]
    simp

theorem mem_keys_add_edge_of_mem {α : Type} [DecidableEq α] (g : Graph α)
    (s sk B : List α) (hsk : g.state_key = some sk) (hB : B ∈ keys g) :
    B ∈ keys (g.add_edge s) := by
  rw [keys_add_edge g s sk hsk]
  by_cases hls : (lookupA g.vertices s).isSome
  · rwa [if_pos hls]
  · rw [if_neg hls]
    exact List.mem_append_left _ hB

theorem succsOf_add_edge {α : Type} [DecidableEq α] (g : Graph α) (s sk A : List α)
    (hsk : g.state_key = some sk) (hmem : (lookupA g.vertices sk).isSome) :
    succsOf (g.add_edge s) A =
      if A = sk then bump (succsOf g sk) s else succsOf g A := by
  have hv : (g.add_edge s).vertices =
      updateA (if (lookupA g.vertices s).isSome then g.vertices
               else g.vertices ++ [(s, [])]) sk (fun c => bump c s) := by
    simp [Graph.add_edge, hsk]
  have hlook : ∀ B, lookupA (if (lookupA g.vertices s).isSome then g.vertices
      else g.vertices ++ [(s, [])]) B =
      if B = s then some ((lookupA g.vertices s).getD []) else lookupA g.vertices B :=
    fun B => lookupA_extend _ _ _ _
  by_cases hA : A = sk
  · subst hA
    rw [if_pos rfl, succsOf, hv, lookupA_updateA_self, hlook A]
    by_cases hAs : A = s
    · subst hAs
      simp [succsOf]
    · rw [if_neg hAs]
      obtain ⟨c, hc⟩ := Option.isSome_iff_exists.mp hmem
      simp [succsOf, hc]
  · rw [if_neg hA, succsOf, hv, lookupA_updateA_ne _ _ _ _ hA, hlook A]
    by_cases hAs : A = s
    · subst hAs
      simp [succsOf]
    · rw [if_neg hAs]
      rfl

theorem weightOf_add_edge {α : Type} [DecidableEq α] (g : Graph α) (s sk A B : List α)
    (hsk : g.state_key = some sk) (hmem : (lookupA g.vertices sk).isSome) :
    weightOf (g.add_edge s) A B =
      weightOf g A B + (if A = sk ∧ B = s then 1 else 0) := by
  rw [weightOf, succsOf_add_edge g s sk A hsk hmem]
  by_cases hA : A = sk
  · subst hA
    rw [if_pos rfl]
    by_cases hB : B = s
    · subst hB
      rw [lookupA_bump_self]
      simp [weightOf]
    · rw [lookupA_bump_ne _ _ _ hB]
      simp [weightOf, hB]
  · simp [weightOf, hA]

theorem hasEdge_add_edge {α : Type} [DecidableEq α] (g : Graph α) (s sk A B : List α)
    (hsk : g.state_key = some sk) (hmem : (lookupA g.vertices sk).isSome) :
    hasEdge (g.add_edge s) A B = true ↔
      (hasEdge g A B = true ∨ (A = sk ∧ B = s)) := by
  rw [hasEdge, succsOf_add_edge g s sk A hsk hmem]
  by_cases hA : A = sk
  · subst hA
    rw [if_pos rfl]
    by_cases hB : B = s
    · subst hB
      rw [lookupA_bump_self]
      simp
    · rw [lookupA_bump_ne _ _ _ hB]
      simp [hasEdge, hB]
  · simp [hasEdge, hA]

theorem countAdj_concat {α : Type} [DecidableEq α] (l : List (List α))
    (s A B : List α) :
    countAdj (l ++ [s]) A B =
      countAdj l A B + (if l.getLast? = some A ∧ s = B then 1 else 0) := by
  induction l with
  | nil => simp [countAdj]
  | cons x xs ih =>
      cases xs with
      | nil =>
          by_cases h : x = A ∧ s = B <;>
            simp [countAdj, h, List.getLast?]
      | cons y ys =>
          have e1 : ∀ (a b : List α) (rest : List (List α)),
              countAdj (a :: b :: rest) A B =
                (if a = A ∧ b = B then 1 else 0) + countAdj (b :: rest) A B :=
            fun a b rest => rfl
          simp only [List.cons_append] at ih ⊢
          rw [e1 x y (ys ++ [s]), ih, e1 x y ys, List.getLast?_cons_cons]
          omega

theorem buildGraph_concat {α : Type} [DecidableEq α] (l : List (List α))
    (s : List α) :
    buildGraph (l ++ [s]) = (buildGraph l).add_edge s := by
  simp [buildGraph, List.foldl_append]

theorem graph_inv {α : Type} [DecidableEq α] (states : List (List α)) :
    (buildGraph states).state_key = states.getLast? ∧
    (∀ s, (buildGraph states).state_key = some s →
      (lookupA (buildGraph states).vertices s).isSome = true) ∧
    (∀ k, k ∈ keys (buildGraph states) → k ∈ states) ∧
    (∀ A B, weightOf (buildGraph states) A B = countAdj states A B) ∧
    (∀ A B, hasEdge (buildGraph states) A B = true → B ∈ keys (buildGraph states)) ∧
    (∀ A B, hasEdge (buildGraph states) A B = true ↔
      1 ≤ weightOf (buildGraph states) A B) := by
  induction states using List.reverseRecOn with
  | nil =>
      refine ⟨rfl, fun s h => Option.noConfusion h, fun k hk => ?_, fun A B => rfl,
        fun A B h => ?_, fun A B => ?_⟩
      · simp [keys, buildGraph, Graph.empty] at hk
      · simp [hasEdge, succsOf, lookupA, buildGraph, Graph.empty] at h
      · simp [hasEdge, weightOf, succsOf, lookupA, buildGraph, Graph.empty]
  | append_singleton l s ih =>
      obtain ⟨ih1, ih2, ih3, ih4, ih5, ih6⟩ := ih
      rw [buildGraph_concat]
      cases hgl : l.getLast? with
      | none =>
          have hl : l = [] := List.getLast?_eq_none_iff.mp hgl
          subst hl
          have hg : (buildGraph ([] : List (List α))).add_edge s =
              (⟨[(s, [])], some s⟩ : Graph α) := rfl
          rw [hg]
          refine ⟨by simp, ?_, ?_, ?_, ?_, ?_⟩
          · intro s0 h0
            injection h0 with h0
            subst h0
            simp [lookupA]
          · intro k hk
            simp [keys] at hk
            simp [hk]
          · intro A B
            by_cases hA : s = A <;>
              simp [weightOf, succsOf, lookupA, hA, countAdj]
          · intro A B h
            by_cases hA : s = A <;>
              simp [hasEdge, succsOf, lookupA, hA] at h
          · intro A B
            by_cases hA : s = A <;>
              simp [hasEdge, weightOf, succsOf, lookupA, hA]
      | some sk =>
          have hsk : (buildGraph l).state_key = some sk := by rw [ih1, hgl]
          have hmem : (lookupA (buildGraph l).vertices sk).isSome = true :=
            ih2 sk hsk
          refine ⟨?_, ?_, ?_, ?_, ?_, ?_⟩
          · rw [add_edge_state_key, List.getLast?_concat]
          · intro s0 h0
            rw [add_edge_state_key] at h0
            injection h0 with h0
            subst h0
            have hm := mem_keys_add_edge_self (buildGraph l) s sk hsk
            simp only [keys] at hm
            exact (lookupA_isSome_iff_mem _ _).mpr hm
          · intro k hk
            rw [keys_add_edge (buildGraph l) s sk hsk] at hk
            by_cases hls : (lookupA (buildGraph l).vertices s).isSome
            · rw [if_pos hls] at hk
              exact List.mem_append_left _ (ih3 k hk)
            · rw [if_neg hls] at hk
              rcases List.mem_append.mp hk with h1 | h2
              · exact List.mem_append_left _ (ih3 k h1)
              · simp only [List.mem_singleton] at h2
                simp [h2]
          · intro A B
            rw [weightOf_add_edge (buildGraph l) s sk A B hsk hmem,
              countAdj_concat, ih4, hgl]
            have hcond : (some sk = some A ∧ s = B) ↔ (A = sk ∧ B = s) := by
              constructor
              · rintro ⟨h1, h2⟩
                injection h1 with h1
                exact ⟨h1.symm, h2.symm⟩
              · rintro ⟨h1, h2⟩
                exact ⟨by rw [h1], h2.symm⟩
            rw [if_congr hcond rfl rfl]
          · intro A B h
            rcases (hasEdge_add_edge (buildGraph l) s sk A B hsk hmem).mp h with
              h1 | ⟨hA, hB⟩
            · exact mem_keys_add_edge_of_mem (buildGraph l) s sk B hsk (ih5 A B h1)
            · rw [hB]
              exact mem_keys_add_edge_self (buildGraph l) s sk hsk
          · intro A B
            rw [hasEdge_add_edge (buildGraph l) s sk A B hsk hmem,
              weightOf_add_edge (buildGraph l) s sk A B hsk hmem]
            by_cases hc : A = sk ∧ B = s
            · simp [hc]
            · rw [if_neg hc]
              simp [hc, ih6]

/-- Claim C6: in any graph built by a sequence of `add_edge` calls from a
fresh graph, every successor key is also a top-level vertex, every stored
edge weight is at least 1, and the weight of edge `A -> B` equals the
number of times window `B` was inserted immediately after window `A`. -/
theorem c6_graph_invariants {α : Type} [DecidableEq α] (states : List (List α))
    (A B : List α) (h : hasEdge (buildGraph states) A B = true) :
    B ∈ keys (buildGraph states) ∧
    1 ≤ weightOf (buildGraph states) A B ∧
    weightOf (buildGraph states) A B = countAdj states A B := by
  obtain ⟨-, -, -, h4, h5, h6⟩ := graph_inv states
  exact ⟨h5 A B h, (h6 A B).mp h, h4 A B⟩

/-- Claim C6, witness: after inserting the window sequence
`[1], [2], [1], [2]` the edge `[1] -> [2]` exists, its target is a vertex,
and its weight is 2, the number of times `[2]` immediately followed
`[1]`. -/
theorem c6_witness :
    [2] ∈ keys (buildGraph [[1], [2], [1], [2]] : Graph Nat) ∧
    1 ≤ weightOf (buildGraph [[1], [2], [1], [2]] : Graph Nat) [1] [2] ∧
    weightOf (buildGraph [[1], [2], [1], [2]] : Graph Nat) [1] [2] =
      countAdj [[1], [2], [1], [2]] [1] [2] :=
  c6_graph_invariants [[1], [2], [1], [2]] [1] [2] (by decide)

theorem windows_mem {α : Type} (lvl : Nat) (data : List α) (w : List α)
    (hw : w ∈ windows lvl data) : w ≠ [] ∧ ∀ x ∈ w, x ∈ data := by
  by_cases h0 : lvl = 0
  · subst h0
    simp only [windows, reduceIte] at hw
    rw [List.mem_map] at hw
    obtain ⟨i, hi, hwi⟩ := hw
    rw [List.mem_range] at hi
    subst hwi
    refine ⟨fun hemp => ?_, fun x hx => ?_⟩
    · have hlen := congrArg List.length hemp
      simp [List.length_take, List.length_drop] at hlen
      omega
    · exact List.drop_subset _ _ (List.take_subset _ _ hx)
  · simp only [windows, if_neg h0] at hw
    rw [List.mem_map] at hw
    obtain ⟨i, hi, hwi⟩ := hw
    rw [List.mem_range] at hi
    subst hwi
    refine ⟨fun hemp => ?_, fun x hx => ?_⟩
    · have hlen := congrArg List.length hemp
      simp [List.length_take, List.length_drop] at hlen
      omega
    · exact List.drop_subset _ _ (List.take_subset _ _ hx)

theorem good_step {α : Type} [DecidableEq α] (g g2 : Graph α) (data : List α)
    (r1 r2 : Nat) (t : α) (hg : GoodGraph g data)
    (hok : g.get_random_token r1 r2 = .ok (g2, t)) :
    GoodGraph g2 data ∧ t ∈ data := by
  obtain ⟨hg1, hg2, hg3⟩ := hg
  cases hsk : g.state_key with
  | none => simp [Graph.get_random_token, hsk] at hok
  | some sk =>
      have main : ∀ n : List α, n ∈ keys g →
          (match n.getLast? with
            | some t0 => (Except.ok (⟨g.vertices, some n⟩, t0) :
                Except GraphError (Graph α × α))
            | Option.none => Except.error GraphError.indexError) = .ok (g2, t) →
          GoodGraph g2 data ∧ t ∈ data := by
        intro n hnmem hok2
        cases hlast : n.getLast? with
        | none => rw [hlast] at hok2; cases hok2
        | some t0 =>
            rw [hlast] at hok2
            injection hok2 with hok2
            injection hok2 with hga hta
            subst hta
            have hgood : GoodGraph (⟨g.vertices, some n⟩ : Graph α) data := by
              refine ⟨fun k hk => hg1 k hk, fun A B h => hg2 A B h, ?_⟩
              intro s0 hs0
              injection hs0 with hs0
              subst hs0
              exact hnmem
            rw [← hga]
            exact ⟨hgood, (hg1 n hnmem).2 t0 (getLast?_eq_some_mem hlast)⟩
      cases hyn : g.yield_neighbor r1 with
      | ok n =>
          have hnmem : n ∈ keys g := by
            cases hsucc : lookupA g.vertices sk with
            | none => simp [Graph.yield_neighbor, hsk, hsucc] at hyn
            | some succs =>
                by_cases h0 : sumWeights succs = 0
                · simp [Graph.yield_neighbor, hsk, hsucc, h0] at hyn
                · simp only [Graph.yield_neighbor, hsk, hsucc, if_neg h0] at hyn
                  split at hyn
                  · rename_i n2 hsel
                    injection hyn with hyn
                    subst hyn
                    have hmm := selectNeighbor_mem _ _ _ hsel
                    have hedge : hasEdge g sk n2 = true := by
                      rw [hasEdge, succsOf, hsucc]
                      simpa using (lookupA_isSome_iff_mem succs n2).mpr hmm
                    exact hg2 sk n2 hedge
                  · cases hyn
          apply main n hnmem
          rw [← hok]
          simp [Graph.get_random_token, hsk, hyn]
      | error e =>
          cases e with
          | noNeighbors =>
              cases hget : (g.vertices.map Prod.fst).get?
                  (r2 % (g.vertices.map Prod.fst).length) with
              | none =>
                  have hget2 := hget
                  simp only [List.get?_eq_getElem?, List.getElem?_map,
                    List.length_map] at hget2
                  simp [Graph.get_random_token, hsk, hyn, hget2] at hok
              | some k =>
                  apply main k (List.get?_mem hget)
                  rw [← hok]
                  have hget2 := hget
                  simp only [List.get?_eq_getElem?, List.getElem?_map,
                    List.length_map] at hget2
                  simp [Graph.get_random_token, hsk, hyn, hget2]
          | untrainedGraph => simp [Graph.get_random_token, hsk, hyn] at hok
          | keyError => simp [Graph.get_random_token, hsk, hyn] at hok
          | assertFalse => simp [Graph.get_random_token, hsk, hyn] at hok
          | indexError => simp [Graph.get_random_token, hsk, hyn] at hok

theorem good_run {α : Type} [DecidableEq α] (data : List α) :
    ∀ (seeds : List (Nat × Nat)) (g g2 : Graph α) (ts : List α),
    GoodGraph g data → genTokens g seeds = .ok (g2, ts) → ∀ t ∈ ts, t ∈ data := by
  intro seeds
  induction seeds with
  | nil =>
      intro g g2 ts hg hok
      simp [genTokens] at hok
      rw [hok.2]
      simp
  | cons p rest ih =>
      intro g g2 ts hg hok
      obtain ⟨r1, r2⟩ := p
      cases hstep : g.get_random_token r1 r2 with
      | error e => simp [genTokens, hstep] at hok
      | ok q =>
          obtain ⟨gmid, t0⟩ := q
          obtain ⟨hgood, ht0⟩ := good_step g gmid data r1 r2 t0 hg hstep
          cases hrest : genTokens gmid rest with
          | error e => simp [genTokens, hstep, hrest] at hok
          | ok q2 =>
              obtain ⟨gfin, ts1⟩ := q2
              simp only [genTokens, hstep, hrest] at hok
              injection hok with hok
              injection hok with hge hts
              intro t ht
              rw [← hts] at ht
              rcases List.mem_cons.mp ht with h | h
              · rw [h]; exact ht0
              · exact ih gmid gfin ts1 hgood hrest t h

theorem trained_good {α : Type} [DecidableEq α] (lvl : Nat) (data : List α) :
    GoodGraph (buildGraph (windows lvl data)) data := by
  obtain ⟨h1, h2, h3, h4, h5, h6⟩ := graph_inv (windows lvl data)
  exact ⟨fun k hk => windows_mem lvl data k (h3 k hk), h5,
    fun s hs => (lookupA_isSome_iff_mem _ _).mp (h2 s hs)⟩

/-- Claim C7: every token produced by any number of generation steps on a
trained model appears in the training data — each emitted token is the
trailing element of some vertex state, and every vertex state is a window
over the training input. -/
theorem c7_closure {α : Type} [DecidableEq α] (rw : RandomWriter α)
    (data : List α) (seeds : List (Nat × Nat)) (g0 g1 : Graph α) (ts : List α)
    (htrain : (rw.train_iterable data).graph = some g0)
    (hgen : genTokens g0 seeds = .ok (g1, ts)) :
    ∀ t ∈ ts, t ∈ data := by
  have hg0 : g0 = buildGraph (windows rw.level data) := by
    have h := htrain
    simp only [RandomWriter.train_iterable, Option.some.injEq] at h
    exact h.symm
  subst hg0
  exact good_run data seeds _ g1 ts (trained_good rw.level data) hgen

/-- Claim C7, witness: a level-1 model trained on `[1, 2]` generates (with
seed pair `(0, 0)`, which hits the dead end at `[2]` and restarts at `[1]`)
the token `1`, which indeed occurs in the training data. -/
theorem c7_witness : (1 : Nat) ∈ ([1, 2] : List Nat) :=
  c7_closure ⟨Tokenization.none, 1, Option.none⟩ [1, 2] [(0, 0)]
    (buildGraph (windows 1 [1, 2]))
    ⟨(buildGraph (windows 1 [1, 2])).vertices, some [1]⟩ [1] rfl (by decide) 1
    (by decide)

/-- Claim C3: when the current state `sk` has successors `succs` of total
weight `totalWeight` and the draw is `d` with `1 <= d <= totalWeight` (seed
`d - 1` realizes the draw `d`), `yield_neighbor` returns exactly the first
successor, in stable insertion order, at which the cumulative sum of the
weights reaches or exceeds `d` — so the same graph state and draw always
select the same successor. -/
theorem c3_weighted_selection {α : Type} [DecidableEq α] (g : Graph α)
    (sk : List α) (succs : List (List α × Nat)) (d : Nat)
    (hsk : g.state_key = some sk) (hsucc : lookupA g.vertices sk = some succs)
    (h1 : 1 ≤ d) (h2 : d ≤ sumWeights succs) :
    (specSelect succs d).isSome = true ∧
    g.yield_neighbor (d - 1) = .ok ((specSelect succs d).getD []) := by
  have htot : 1 ≤ sumWeights succs := le_trans h1 h2
  have hmod : (d - 1) % sumWeights succs + 1 = d := by
    have hlt : d - 1 < sumWeights succs := by omega
    rw [Nat.mod_eq_of_lt hlt]
    omega
  have hspec : specSelect succs d = selectNeighbor succs (d : Int) :=
    specSelect_eq_selectNeighbor succs d h1
  have hissome : (selectNeighbor succs ((d : Nat) : Int)).isSome = true :=
    selectNeighbor_isSome succs d (by omega) (by exact_mod_cast h2)
  obtain ⟨n, hn⟩ := Option.isSome_iff_exists.mp hissome
  refine ⟨by rw [hspec]; exact hissome, ?_⟩
  simp only [Graph.yield_neighbor, hsk, hsucc]
  rw [if_neg (by omega), hmod, hn, hspec, hn]
  rfl

/-- Claim C3, witness: from state `[1]` with successors `[2]` (weight 2) and
`[3]` (weight 1), the draw `d = 3` selects `[3]`, the first successor whose
cumulative weight reaches 3. -/
theorem c3_witness :
    (specSelect [([2], 2), ([3], 1)] 3).isSome = true ∧
    (Graph.mk [([1], [([2], 2), ([3], 1)])] (some [1]) : Graph Nat).yield_neighbor
        (3 - 1) = .ok ((specSelect [([2], 2), ([3], 1)] 3).getD []) :=
  c3_weighted_selection (Graph.mk [([1], [([2], 2), ([3], 1)])] (some [1]))
    [1] [([2], 2), ([3], 1)] 3 rfl (by decide) (by decide) (by decide)

/-- Claim C4: on a graph with at least one (nonempty) vertex whose current
state has zero outgoing weight, `get_random_token` does not raise: it
replaces the current state by the vertex at index `r2 % |vertices|` of the
full vertex list (the uniform random restart) and returns that state's
trailing token. -/
theorem c4_dead_end_fallback {α : Type} [DecidableEq α] (g : Graph α)
    (sk : List α) (succs : List (List α × Nat)) (r1 r2 : Nat)
    (hsk : g.state_key = some sk) (hsucc : lookupA g.vertices sk = some succs)
    (h0 : sumWeights succs = 0) (hv : keys g ≠ [])
    (hne : ∀ k ∈ keys g, k ≠ []) :
    (g.get_random_token r1 r2).map Prod.fst =
      .ok ⟨g.vertices, some ((keys g).getD (r2 % (keys g).length) [])⟩ ∧
    (g.get_random_token r1 r2).map (fun p => some p.2) =
      .ok ((keys g).getD (r2 % (keys g).length) []).getLast? := by
  have hyn : g.yield_neighbor r1 = .error .noNeighbors := by
    simp only [Graph.yield_neighbor, hsk, hsucc]
    rw [if_pos h0]
  have hlen : 0 < (keys g).length := by
    cases hk : keys g with
    | nil => exact absurd hk hv
    | cons a l => simp
  have hidx : r2 % (keys g).length < (keys g).length := Nat.mod_lt _ hlen
  have hget : (keys g).get? (r2 % (keys g).length) =
      some ((keys g).getD (r2 % (keys g).length) []) := by
    rw [List.getD_eq_getElem?_getD, ← List.get?_eq_getElem?,
      List.get?_eq_get hidx]
    rfl
  have hmem : (keys g).getD (r2 % (keys g).length) [] ∈ keys g :=
    List.get?_mem hget
  obtain ⟨t, ht⟩ := Option.isSome_iff_exists.mp
    (List.getLast?_isSome.mpr (hne _ hmem))
  have hstep : g.get_random_token r1 r2 =
      .ok (⟨g.vertices, some ((keys g).getD (r2 % (keys g).length) [])⟩, t) := by
    simp only [Graph.get_random_token, hsk, hyn]
    have hks : g.vertices.map Prod.fst = keys g := rfl
    rw [hks, hget]
    have ht2 := ht
    rw [List.getD_eq_getElem?_getD] at ht2
    simp [ht, ht2]
  rw [hstep, ht]
  exact ⟨rfl, rfl⟩

/-- Claim C4, witness: in the graph trained from `[1], [2]` the state `[2]`
is a dead end; with restart seed `r2 = 0` the step restarts at vertex `[1]`
and emits its trailing token `1` without error. -/
theorem c4_witness :
    ((Graph.mk [([1], [([2], 1)]), ([2], [])] (some [2]) : Graph Nat).get_random_token
        0 0).map Prod.fst =
      .ok ⟨[([1], [([2], 1)]), ([2], [])],
        some ((keys (Graph.mk [([1], [([2], 1)]), ([2], [])] (some [2]) : Graph Nat)).getD
          (0 % (keys (Graph.mk [([1], [([2], 1)]), ([2], [])] (some [2]) : Graph Nat)).length)
          [])⟩ ∧
    ((Graph.mk [([1], [([2], 1)]), ([2], [])] (some [2]) : Graph Nat).get_random_token
        0 0).map (fun p => some p.2) =
      .ok ((keys (Graph.mk [([1], [([2], 1)]), ([2], [])] (some [2]) : Graph Nat)).getD
        (0 % (keys (Graph.mk [([1], [([2], 1)]), ([2], [])] (some [2]) : Graph Nat)).length)
        []).getLast? :=
  c4_dead_end_fallback (Graph.mk [([1], [([2], 1)]), ([2], [])] (some [2]))
    [2] [] 0 0 rfl (by decide) rfl (by decide) (by decide)

/-- Claim C1, counterexample: after training a level-1 model on `[1, 2]` the
edge `[1] -> [2]` is present, but a second training call on `[3, 4]` resets
the graph and the edge is gone — the claimed accumulation fails. -/
theorem c1_counterexample :
    ((⟨Tokenization.none, 1, Option.none⟩ : RandomWriter Nat).train_iterable
        [1, 2]).graph.map (fun g => hasEdge g [1] [2]) = some true ∧
    (((⟨Tokenization.none, 1, Option.none⟩ : RandomWriter Nat).train_iterable
        [1, 2]).train_iterable [3, 4]).graph.map (fun g => hasEdge g [1] [2]) =
      some false := by
  constructor <;> decide

/-- Claim C1, amended: `train_iterable` installs a fresh graph on every
call, so a second training call discards the first entirely — training
twice is the same as training once on the second input alone. -/
theorem c1_train_resets {α : Type} [DecidableEq α] (rw : RandomWriter α)
    (d1 d2 : List α) :
    (rw.train_iterable d1).train_iterable d2 = rw.train_iterable d2 := rfl

/-- Claim C2, counterexample: `save_pickle` on a model that has never been
trained succeeds (and the pickle round-trips), rather than failing with the
`Untrained` error as claimed. -/
theorem c2_counterexample :
    load_pickle (⟨Tokenization.word, 1, Option.none⟩ :
        RandomWriter Nat).save_pickle =
      .ok ⟨Tokenization.word, 1, Option.none⟩ := by decide

/-- Claim C2, amended: pulling from `generate()` fails with the `untrained`
error exactly when the model has no graph (no training call has happened),
while `save_pickle` performs no trained-ness check at all and succeeds on
every model, trained or not. -/
theorem c2_untrained_check {α : Type} [DecidableEq α] (rw : RandomWriter α)
    (r1 r2 : Nat) :
    (rw.generate1 r1 r2 = .error .untrained ↔ rw.graph = Option.none) ∧
    load_pickle rw.save_pickle = .ok rw := by
  obtain ⟨m, lvl, gr⟩ := rw
  refine ⟨?_, by cases gr <;> cases m <;> rfl⟩
  cases gr with
  | none => exact ⟨fun _ => rfl, fun _ => rfl⟩
  | some g =>
      refine ⟨fun h => ?_, fun h => by cases h⟩
      exfalso
      cases hgr : g.get_random_token r1 r2 with
      | error e => simp [RandomWriter.generate1, hgr] at h
      | ok p => simp [RandomWriter.generate1, hgr] at h

/-- Claim C5: training at level 0 inserts one singleton window per data
element (`L` insertions), training at level `lvl >= 1` inserts exactly
`max(0, L - lvl + 1)` windows, and `train_iterable` performs precisely one
`add_edge` call per window (its graph is the fold of `add_edge` over the
window list). -/
theorem c5_window_count {α : Type} [DecidableEq α] (lvl : Nat) (data : List α)
    (rw : RandomWriter α) :
    (windows 0 data).length = data.length ∧
    (1 ≤ lvl →
      ((windows lvl data).length : Int) = max ((data.length : Int) - lvl + 1) 0) ∧
    (rw.train_iterable data).graph = some (buildGraph (windows rw.level data)) := by
  refine ⟨by simp [windows], fun hl => ?_, rfl⟩
  have hne : ¬ lvl = 0 := by omega
  simp only [windows, if_neg hne, List.length_map, List.length_range]
  omega

/-- Claim C5, witness: at level 2 on data of length 3 there are exactly
`max(0, 3 - 2 + 1) = 2` windows. -/
theorem c5_witness :
    ((windows 2 ([1, 2, 3] : List Nat)).length : Int) =
      max ((([1, 2, 3] : List Nat).length : Int) - 2 + 1) 0 :=
  (c5_window_count 2 [1, 2, 3] ⟨Tokenization.none, 2, Option.none⟩).2.1 (by decide)

/-- Claim C8: deserializing the serialization of any model yields the model
back unchanged — level, tokenization mode, and the graph's full
vertex/edge/weight contents (and cursor) are all preserved. -/
theorem c8_roundtrip {α : Type} (rw : RandomWriter α) :
    load_pickle rw.save_pickle = .ok rw := by
  obtain ⟨m, lvl, gr⟩ := rw
  cases m <;> rfl

/-- Claim C9, counterexample: writing a single word-mode token `"hi"`
produces `"hi "` with a trailing space, not `"hi"` — the separator is also
written after the last token. -/
theorem c9_counterexample :
    generate_file_text Tokenization.word ["hi"] ≠ "hi" := by decide

/-- Claim C9, amended: byte mode concatenates the token bytes with no
separator and character mode concatenates the token strings with no
separator, but word and none modes append a single space after every
token, including the last one. -/
theorem c9_separators (toks : List String) (btoks : List Nat) :
    generate_file_text Tokenization.word toks =
      String.join (toks.map (fun t => t ++ " ")) ∧
    generate_file_text Tokenization.none toks =
      String.join (toks.map (fun t => t ++ " ")) ∧
    generate_file_text Tokenization.character toks = String.join toks ∧
    generate_file_bytes btoks = btoks := by
  refine ⟨?_, ?_, ?_, rfl⟩ <;>
    simp [generate_file_text, String.join, List.foldl_map]

/-- Claim C10: when the tokenized input is shorter than the level, training
still installs a (fresh, empty) graph, so `generate()` does not raise the
`untrained` error; instead the first token pulled raises the graph's own
`untrainedGraph` error. -/
theorem c10_empty_training {α : Type} [DecidableEq α] (rw : RandomWriter α)
    (data : List α) (r1 r2 : Nat) (h : data.length < rw.level) :
    (rw.train_iterable data).graph = some Graph.empty ∧
    (rw.train_iterable data).generate1 r1 r2 = .error (.graphErr .untrainedGraph) := by
  have hne : ¬ rw.level = 0 := by omega
  have hw : windows rw.level data = [] := by
    simp only [windows, if_neg hne, List.map_eq_nil_iff, List.range_eq_nil]
    omega
  have ht : rw.train_iterable data = { rw with graph := some Graph.empty } := by
    simp [RandomWriter.train_iterable, hw, buildGraph]
  rw [ht]
  exact ⟨rfl, rfl⟩

/-- Claim C10, witness: a level-2 model trained on the single-token input
`[5]` holds an empty graph and its first generated token raises the
internal `untrainedGraph` error. -/
theorem c10_witness :
    ((⟨Tokenization.none, 2, Option.none⟩ : RandomWriter Nat).train_iterable
        [5]).graph = some Graph.empty ∧
    ((⟨Tokenization.none, 2, Option.none⟩ : RandomWriter Nat).train_iterable
        [5]).generate1 0 0 = .error (.graphErr .untrainedGraph) :=
  c10_empty_training ⟨Tokenization.none, 2, Option.none⟩ [5] 0 0 (by decide)

end MarkovBots
